import Mathlib

/-!
Verification development for the furfsky-mini resource-pack patch tool
(`patch.py` and its legacy variant `legacy/patch.py`).

The filesystem is modelled as a tree of entries: a file with string content,
or a directory holding a finite association list of named children.  Paths
are lists of name segments (the Python code builds relative paths by joining
segments with "/"; we keep the segments).  A whole filesystem state is an
optional root entry (`none` means the path the evaluator is rooted at does
not exist).  The rule trees of `delete.json` are modelled by `JVal`, which
mirrors the JSON values the Python code dispatches on: strings, objects,
arrays, and anything else (numbers, booleans, null) which `process_rule`
silently ignores.  Objects and arrays are represented by the companion
types `JEntries` and `JList` so that the evaluators are plain structural
recursions.
-/

/-- Filesystem entry: a file with contents, or a directory of named children. -/
inductive Entry where
  | file (content : String)
  | dir (children : List (String × Entry))
deriving Repr

/-- Filesystem state rooted at the evaluator's base path: `none` when the
root path itself does not exist. -/
abbrev FS := Option Entry

mutual
/-- JSON values as dispatched on by `process_rule`: strings, objects, arrays,
and a catch-all for values the code silently ignores. -/
inductive JVal where
  | jstr (s : String)
  | jdict (entries : JEntries)
  | jarr (elems : JList)
  | jother

/-- The key-value pairs of a JSON object, in insertion order. -/
inductive JEntries where
  | nil
  | cons (name : String) (val : JVal) (rest : JEntries)

/-- The elements of a JSON array. -/
inductive JList where
  | nil
  | cons (v : JVal) (rest : JList)
end

/-- The keys of a JSON object, in order (Python `dict.keys()`). -/
def JEntries.keys : JEntries → List String
  | .nil => []
  | .cons n _ rest => n :: rest.keys

/-- The pairs of a JSON object as a Lean list. -/
def JEntries.toList : JEntries → List (String × JVal)
  | .nil => []
  | .cons n v rest => (n, v) :: rest.toList

/-- Concatenation of JSON-object pair sequences, used to talk about an
object rule around one distinguished pair. -/
def JEntries.append : JEntries → JEntries → JEntries
  | .nil, b => b
  | .cons n v rest, b => .cons n v (rest.append b)

/-- The number of elements of a JSON array (Python `len`). -/
def JList.length : JList → Nat
  | .nil => 0
  | .cons _ rest => rest.length + 1

/-- The elements of a JSON array as a Lean list. -/
def JList.toList : JList → List JVal
  | .nil => []
  | .cons v rest => v :: rest.toList

/-- Navigate from an entry along a segment path (pathlib `/` semantics over
the tree model: descending into a file fails, directory children are looked
up by name). -/
def getE : List String → Entry → Option Entry
  | [], e => some e
  | _ :: _, .file _ => none
  | n :: p, .dir cs =>
      match cs.find? (fun x => x.1 == n) with
      | none => none
      | some x => getE p x.2

/-- Navigate from the filesystem root; mirrors `(base_path / relative_path)`
existence and content queries. -/
def fsGet (s : FS) (p : List String) : Option Entry :=
  s.bind (getE p)

/-- Remove the node at path `n :: p` inside an entry, mirroring
`delete_path`: a file is unlinked, a directory removed recursively; a
missing path is a no-op. -/
def delD (n : String) (p : List String) (e : Entry) : Entry :=
  match e with
  | .file c => .file c
  | .dir cs =>
      match p with
      | [] => .dir (cs.filter fun x => !(x.1 == n))
      | m :: q => .dir (cs.map fun x => if x.1 == n then (x.1, delD m q x.2) else x)

/-- Remove the node at a (possibly empty) path inside an entry; the empty
path leaves the entry alone (that case is handled at the `FS` level). -/
def delPath : List String → Entry → Entry
  | [], e => e
  | n :: q, e => delD n q e

/-- Model of `delete_path(base_path / p)`: deleting the root path removes
the whole tree, otherwise the node at `p` is removed if present. -/
def delete_path (s : FS) (p : List String) : FS :=
  match s, p with
  | none, _ => none
  | some _, [] => none
  | some e, n :: q => some (delD n q e)

/-- Model of `process_rule(base_path, relative_path, rule)` from
`src/patch.py` (relative paths kept as segment lists).  String rules delete
or preserve; object rules recurse into named children (the source's loop
over `rule.items()` is rendered as head-step-then-rest composition, which
threads the state identically); two-element array rules run whitelist
(`preserve`) or blacklist (`delete`) filtering over the directory at the
current path, recursing into the declaration object; everything malformed
is a no-op on the state. -/
def process_rule (rel : List String) (r : JVal) (s : FS) : FS :=
  match r with
  | .jstr str => if str == "delete" then delete_path s rel else s
  | .jdict .nil => s
  | .jdict (.cons n v rest) =>
      process_rule rel (.jdict rest) (process_rule (rel ++ [n]) v s)
  | .jarr elems =>
      match elems with
      | .cons (.jstr m) (.cons (.jdict decls) .nil) =>
          if m == "preserve" || m == "delete" then
            match fsGet s rel with
            | some (Entry.dir cs) =>
                if m == "preserve" then
                  let declared := decls.keys
                  let to_delete := (cs.map Prod.fst).filter fun n => !(declared.contains n)
                  let s1 := to_delete.foldl (fun a n => delete_path a (rel ++ [n])) s
                  process_rule rel (.jdict decls) s1
                else
                  process_rule rel (.jdict decls) s
            | _ => s
          else s
      | _ => s
  | .jother => s
termination_by sizeOf r
decreasing_by
  all_goals simp_wf <;> simp_arith

/-- Diagnostics emitted by the body of `process_rule` itself (the
`logger.warning` calls at `src/patch.py` lines 90, 103, 110, 114, 119 and
123), collected in evaluation order and threading the filesystem state
exactly as `process_rule` does.  The auxiliary warning inside
`delete_path` is not collected here. -/
def processWarnings (rel : List String) (r : JVal) (s : FS) : List String :=
  match r with
  | .jstr str =>
      if str == "delete" || str == "preserve" then [] else ["unknown rule"]
  | .jdict .nil => []
  | .jdict (.cons n v rest) =>
      processWarnings (rel ++ [n]) v s ++
        processWarnings rel (.jdict rest) (process_rule (rel ++ [n]) v s)
  | .jarr elems =>
      if elems.length != 2 then ["incorrect array rule format"]
      else
        match elems with
        | .cons m0 (.cons d0 .nil) =>
            match m0 with
            | .jstr m =>
                if !(m == "preserve" || m == "delete") then ["unknown mode"]
                else
                  match d0 with
                  | .jdict decls =>
                      match fsGet s rel with
                      | none => ["directory does not exist"]
                      | some (.file _) => ["path is not a directory"]
                      | some (.dir cs) =>
                          if m == "preserve" then
                            let declared := decls.keys
                            let to_delete := (cs.map Prod.fst).filter fun n => !(declared.contains n)
                            let s1 := to_delete.foldl (fun a n => delete_path a (rel ++ [n])) s
                            processWarnings rel (.jdict decls) s1
                          else
                            processWarnings rel (.jdict decls) s
                  | _ => ["declaration list is not an object"]
            | _ => ["unknown mode"]
        | _ => []
  | .jother => []
termination_by sizeOf r
decreasing_by
  all_goals simp_wf <;> simp_arith

/-- Size bound for entry pairs, used for termination of the entry walkers. -/
theorem sizeOf_snd_lt_entryPair (x : String × Entry) : sizeOf x.2 < sizeOf x := by
  cases x; simp_arith

mutual
/-- Well-formedness of a filesystem entry: directory children carry
pairwise-distinct names, recursively.  Real directories always satisfy this;
the association-list model is a superset. -/
def wfE : Entry → Bool
  | .file _ => true
  | .dir cs => decide (cs.map Prod.fst).Nodup && wfL cs
termination_by e => sizeOf e
decreasing_by
  all_goals simp_wf

/-- Well-formedness of every entry in a child list. -/
def wfL : List (String × Entry) → Bool
  | [] => true
  | x :: xs => wfE x.2 && wfL xs
termination_by l => sizeOf l
decreasing_by
  all_goals simp_wf
  all_goals try simp_arith
  all_goals have h := sizeOf_snd_lt_entryPair x
  all_goals omega
end

/-- Well-formedness of a filesystem state. -/
def wfFS : FS → Prop
  | none => True
  | some e => wfE e = true

/-- Satisfaction of a rule at a state: the effects demanded by the rule
already hold, so re-running it cannot change anything.  String `delete`
rules demand the target be absent; object rules demand child satisfaction
(at the same state); well-formed array rules demand, whenever the target
is a directory, that in preserve mode every present entry is declared, and
that every declared sub-rule is satisfied. -/
def Sat (rel : List String) (r : JVal) (s : FS) : Prop :=
  match r with
  | .jstr str => str = "delete" -> fsGet s rel = none
  | .jdict .nil => True
  | .jdict (.cons n v rest) => Sat (rel ++ [n]) v s /\ Sat rel (.jdict rest) s
  | .jarr elems =>
      match elems with
      | .cons (.jstr m) (.cons (.jdict decls) .nil) =>
          (m = "preserve" \/ m = "delete") ->
          forall cs, fsGet s rel = some (Entry.dir cs) ->
            ((m = "preserve" -> forall x, x ∈ cs -> x.1 ∈ decls.keys) /\
              Sat rel (.jdict decls) s)
      | _ => True
  | .jother => True
termination_by sizeOf r
decreasing_by
  all_goals simp_wf <;> simp_arith

/-- Rule trees built only from the string leaf `preserve` and from mappings:
no array rules, no `delete` leaves, no other JSON values. -/
def preserveOnly : JVal → Prop
  | .jstr str => str = "preserve"
  | .jdict .nil => True
  | .jdict (.cons _ v rest) => preserveOnly v /\ preserveOnly (.jdict rest)
  | .jarr _ => False
  | .jother => False
termination_by r => sizeOf r
decreasing_by
  all_goals simp_wf <;> simp_arith

namespace Legacy

/-- Model of `process_rule(base_path, relative_path, rule, dry_run)` from
`src/legacy/patch.py`.  The deletion helper `delete_path` of the legacy file
has the same semantics as the modern one (it only adds prints), so the same
model function is used for it.  Deletions are guarded by the `dry_run`
flag exactly as in the legacy source; object rules are rendered as
head-step-then-rest composition exactly as in the modern model. -/
def process_rule (rel : List String) (r : JVal) (dry : Bool) (s : FS) : FS :=
  match r with
  | .jstr str =>
      if str == "delete" then (if dry then s else delete_path s rel) else s
  | .jdict .nil => s
  | .jdict (.cons n v rest) =>
      process_rule rel (.jdict rest) dry (process_rule (rel ++ [n]) v dry s)
  | .jarr elems =>
      match elems with
      | .cons (.jstr m) (.cons (.jdict decls) .nil) =>
          if m == "preserve" || m == "delete" then
            match fsGet s rel with
            | some (Entry.dir cs) =>
                if m == "preserve" then
                  let declared := decls.keys
                  let to_delete := (cs.map Prod.fst).filter fun n => !(declared.contains n)
                  let s1 := to_delete.foldl
                    (fun a n => if dry then a else delete_path a (rel ++ [n])) s
                  process_rule rel (.jdict decls) dry s1
                else
                  process_rule rel (.jdict decls) dry s
            | _ => s
          else s
      | _ => s
  | .jother => s
termination_by sizeOf r
decreasing_by
  all_goals simp_wf <;> simp_arith

end Legacy

/-- Characters stripped by Python `str.strip()` and `str.rstrip()` with no
arguments. -/
def pyWs (c : Char) : Bool :=
  c == ' ' || c == '\t' || c == '\n' || c == '\r' || c == '\x0b' || c == '\x0c'

/-- Model of Python `s.rstrip()`. -/
def pyRstrip (s : String) : String :=
  String.mk ((s.data.reverse.dropWhile pyWs).reverse)

/-- Model of Python `s.strip()`. -/
def pyStrip (s : String) : String :=
  String.mk (((s.data.dropWhile pyWs).reverse.dropWhile pyWs).reverse)

/-- Model of the Python substring test `needle in hay`: a contiguous
substring occurrence. -/
def pyIn (needle hay : String) : Bool :=
  decide (needle.data <:+: hay.data)

/-- Model of `modify_credits(pack_root, script_root)` acting on file
contents: first argument is the content of the template `credits.txt`
(`none` when the template file is missing), second the content of the
pack's `credits.txt` (`none` when absent); the result is the content of
the pack's `credits.txt` after the call. -/
def modify_credits (tmpl : Option String) (credits : Option String) : Option String :=
  match tmpl with
  | none => credits
  | some t =>
      let signature := pyStrip t
      match credits with
      | some content =>
          if pyIn signature content then some content
          else some (pyRstrip content ++ "\n\n" ++ signature ++ "\n")
      | none => some (signature ++ "\n")

/-- Model of Python `str.split("\n")` over character lists: always returns
at least one (possibly empty) piece, empty pieces are kept. -/
def splitNl : List Char → List (List Char)
  | [] => [[]]
  | c :: cs =>
      if c = '\n' then [] :: splitNl cs
      else
        match splitNl cs with
        | [] => [[c]]
        | l :: ls => (c :: l) :: ls

/-- Model of Python `"\n".join(lines)` over character lists: the pieces
joined with a single newline between consecutive pieces. -/
def joinNl : List (List Char) → List Char
  | [] => []
  | [l] => l
  | l :: rest => l ++ '\n' :: joinNl rest

/-- The fixed description first-line token of `modify_pack_mcmeta`. -/
def descPfx : List Char := "§dMINI §7".data

/-- The fixed description attribution token of `modify_pack_mcmeta`. -/
def descSecond : List Char := "§8modified by §7TunaFish2K".data

/-- Line-level transformation of `modify_pack_mcmeta`: ensure the first
line starts with the prefix token, force the second line to the
attribution token (appending a line when only one exists). -/
def patchDescLines : List (List Char) → List (List Char)
  | [] => []
  | l0 :: rest =>
      let l1 := if descPfx.isPrefixOf l0 then l0 else descPfx ++ l0
      match rest with
      | [] => [l1, descSecond]
      | _ :: rest2 => l1 :: descSecond :: rest2

/-- Description transformation of `modify_pack_mcmeta`: split on newlines,
patch the lines, join back. -/
def patchDesc (d : String) : String :=
  String.mk (joinNl (patchDescLines (splitNl d.data)))

/-- Model of `modify_pack_mcmeta` on a document with a string
`pack.description` field: the new description, and whether the file is
rewritten (the code writes only when the reconstructed description
differs from the original). -/
def modify_pack_mcmeta (desc : String) : String × Bool :=
  (patchDesc desc, patchDesc desc != desc)

mutual
/-- Model of the `rglob("pack.mcmeta")` search of `find_pack_mcmeta`:
depth-first pre-order search for a directory containing an entry named
`pack.mcmeta`, returning that directory's relative path. -/
def rglobPM : Entry → Option (List String)
  | .file _ => none
  | .dir cs =>
      if cs.any (fun x => x.1 == "pack.mcmeta") then some []
      else rglobL cs
termination_by e => sizeOf e
decreasing_by
  all_goals simp_wf

/-- Depth-first search over a child list for the marker file. -/
def rglobL : List (String × Entry) → Option (List String)
  | [] => none
  | x :: xs =>
      match rglobPM x.2 with
      | some p => some (x.1 :: p)
      | none => rglobL xs
termination_by l => sizeOf l
decreasing_by
  all_goals simp_wf
  all_goals try simp_arith
  all_goals have h := sizeOf_snd_lt_entryPair x
  all_goals omega
end

/-- Model of `find_pack_mcmeta(target_dir)`: a missing target yields no
root; a target directly containing `pack.mcmeta` is the root; otherwise
the first recursively found marker determines the root. -/
def find_pack_mcmeta (s : FS) : Option (List String) :=
  match s with
  | none => none
  | some e => if (getE ["pack.mcmeta"] e).isSome then some [] else rglobPM e

/-- Model of `main()` restricted to what determines its exit code, over
worlds where the configuration JSON parses and raw I/O succeeds: the
parsed configuration object (`none` when `delete.json` is missing) and the
target pack directory tree.  The rule processing, override copying and
metadata patching of the success path never change the exit code. -/
def mainRun (config : Option JEntries) (packDir : FS) : Nat :=
  match config with
  | none => 1
  | some cfg =>
      match find_pack_mcmeta packDir with
      | none => 1
      | some root =>
          if (fsGet packDir (root ++ ["assets"])).isNone then 1
          else if !(cfg.keys.contains "assets") then 1
          else 0

/-- Kind agreement used by the shrinking relation: a surviving file keeps
its exact content, a surviving directory stays a directory. -/
def kindLike (a b : Entry) : Prop :=
  match a, b with
  | .file c, e => e = .file c
  | .dir _, .dir _ => True
  | .dir _, .file _ => False

/-- State `t` shrinks state `s`: every path present in `t` was present in
`s`, files with identical content, directories as directories. -/
def SubFS (t s : FS) : Prop :=
  ∀ p e2, fsGet t p = some e2 → ∃ e1, fsGet s p = some e1 ∧ kindLike e2 e1

mutual
/-- Structural shrinking of entries: equal files, or directories whose
name lookups all resolve to shrinkings of the original lookups. -/
def ESub : Entry → Entry → Prop
  | .file c, e => e = .file c
  | .dir cs2, .dir cs1 => ESubL cs2 cs1
  | .dir _, .file _ => False
termination_by a _ => sizeOf a
decreasing_by
  all_goals simp_wf

/-- Lookup-wise shrinking of child lists. -/
def ESubL (cs2 cs1 : List (String × Entry)) : Prop :=
  ∀ n x2, cs2.find? (fun x => x.1 == n) = some x2 →
    match cs1.find? (fun x => x.1 == n) with
    | none => False
    | some x1 => ESub x2.2 x1.2
termination_by sizeOf cs2
decreasing_by
  all_goals simp_wf
  have hm : x2 ∈ cs2 := List.mem_of_find?_eq_some (by assumption)
  have := List.sizeOf_lt_of_mem hm
  have := sizeOf_snd_lt_entryPair x2
  omega
end

theorem fsGet_nil (s : FS) : fsGet s [] = s := by
  cases s <;> rfl

theorem getE_append (p q : List String) (e : Entry) :
    getE (p ++ q) e = (getE p e).bind (getE q) := by
  induction p generalizing e with
  | nil => simp [getE]
  | cons n p ih =>
      cases e with
      | file c => simp [getE]
      | dir cs =>
          simp only [List.cons_append, getE]
          cases cs.find? (fun x => x.1 == n) with
          | none => simp
          | some x => simp [ih]

theorem fsGet_append (s : FS) (p q : List String) :
    fsGet s (p ++ q) = (fsGet s p).bind (getE q) := by
  cases s with
  | none => rfl
  | some e => simp [fsGet, getE_append]

theorem find?_key {α : Type} (cs : List (String × α)) (n : String) (x : String × α)
    (h : cs.find? (fun y => y.1 == n) = some x) : x.1 = n := by
  have := List.find?_some h
  simpa using this

theorem find?_isSome_iff {α : Type} (cs : List (String × α)) (n : String) :
    (cs.find? (fun y => y.1 == n)).isSome ↔ n ∈ cs.map Prod.fst := by
  induction cs with
  | nil => simp
  | cons c cs ih =>
      by_cases h : c.1 = n
      · simp [List.find?_cons, h]
      · have hb : (c.1 == n) = false := by simpa using h
        simp [List.find?_cons, hb, ih, h, Ne.symm h]

theorem getE_delD_self (q : List String) (n : String) (e : Entry) :
    getE (n :: q) (delD n q e) = none := by
  induction q generalizing n e with
  | nil =>
      cases e with
      | file c => rfl
      | dir cs =>
          simp only [delD, getE]
          have : (cs.filter fun x => !(x.1 == n)).find? (fun x => x.1 == n) = none := by
            rw [List.find?_eq_none]
            intro x hx
            have := (List.mem_filter.mp hx).2
            simpa using this
          simp [this]
  | cons m q ih =>
      cases e with
      | file c => rfl
      | dir cs =>
          simp only [delD, getE]
          rw [List.find?_map]
          have hpf : ((fun x : String × Entry => x.1 == n) ∘
              (fun x : String × Entry => if x.1 == n then (x.1, delD m q x.2) else x)) =
              (fun x : String × Entry => x.1 == n) := by
            funext x
            by_cases h : x.1 = n <;> simp [h]
          rw [hpf]
          cases hf : cs.find? (fun x => x.1 == n) with
          | none => simp
          | some x =>
              have hk := find?_key _ _ _ hf
              simp [hk, ih]

theorem fsGet_delete_path_self (s : FS) (p : List String) :
    fsGet (delete_path s p) p = none := by
  cases s with
  | none => rfl
  | some e =>
      cases p with
      | nil => rfl
      | cons n q => simp [delete_path, fsGet, getE_delD_self]

theorem map_eq_self_of {α : Type} (l : List α) (f : α → α)
    (h : ∀ x ∈ l, f x = x) : l.map f = l := by
  induction l with
  | nil => rfl
  | cons x xs ih => simp [h x (by simp), ih fun y hy => h y (by simp [hy])]

theorem keys_nodup_inj {α : Type} {cs : List (String × α)}
    (h : (cs.map Prod.fst).Nodup) {x y : String × α}
    (hx : x ∈ cs) (hy : y ∈ cs) (hk : x.1 = y.1) : x = y := by
  induction cs with
  | nil => cases hx
  | cons c cs ih =>
      simp only [List.map_cons, List.nodup_cons] at h
      rcases List.mem_cons.mp hx with rfl | hx2
      · rcases List.mem_cons.mp hy with rfl | hy2
        · rfl
        · exact absurd (hk ▸ List.mem_map_of_mem Prod.fst hy2) h.1
      · rcases List.mem_cons.mp hy with rfl | hy2
        · exact absurd (hk ▸ List.mem_map_of_mem Prod.fst hx2) h.1
        · exact ih h.2 hx2 hy2

theorem wfL_iff (cs : List (String × Entry)) :
    wfL cs = true ↔ ∀ x ∈ cs, wfE x.2 = true := by
  induction cs with
  | nil => simp [wfL]
  | cons x xs ih => simp [wfL, ih]

theorem wfE_dir_iff (cs : List (String × Entry)) :
    wfE (.dir cs) = true ↔ (cs.map Prod.fst).Nodup ∧ ∀ x ∈ cs, wfE x.2 = true := by
  simp [wfE, wfL_iff]

theorem delD_noop (q : List String) (n : String) (e : Entry)
    (hw : wfE e = true) (h : getE (n :: q) e = none) : delD n q e = e := by
  induction q generalizing n e with
  | nil =>
      cases e with
      | file c => rfl
      | dir cs =>
          simp only [getE] at h
          cases hf : cs.find? (fun x => x.1 == n) with
          | some x => rw [hf] at h; simp at h
          | none =>
              have hall := List.find?_eq_none.mp hf
              simp only [delD]
              congr 1
              apply List.filter_eq_self.mpr
              intro x hx
              simpa using hall x hx
  | cons m q ih =>
      cases e with
      | file c => rfl
      | dir cs =>
          simp only [getE] at h
          rcases wfE_dir_iff cs |>.mp hw with ⟨hnd, hws⟩
          cases hf : cs.find? (fun x => x.1 == n) with
          | none =>
              have hall := List.find?_eq_none.mp hf
              simp only [delD]
              congr 1
              apply map_eq_self_of
              intro x hx
              have : (x.1 == n) = false := by simpa using hall x hx
              simp [this]
          | some x =>
              rw [hf] at h
              have hx := List.mem_of_find?_eq_some hf
              have hkx := find?_key _ _ _ hf
              simp only [delD]
              congr 1
              apply map_eq_self_of
              intro y hy
              by_cases hyk : y.1 = n
              · have hxy : y = x := keys_nodup_inj hnd hy hx (hyk.trans hkx.symm)
                subst hxy
                have hdel : delD m q y.2 = y.2 := ih m y.2 (hws y hy) h
                rw [if_pos (show (y.1 == n) = true by simp [hyk]), hdel]
              · simp [hyk]

theorem delete_path_noop (s : FS) (p : List String)
    (hw : wfFS s) (h : fsGet s p = none) : delete_path s p = s := by
  cases s with
  | none => rfl
  | some e =>
      cases p with
      | nil => simp [fsGet, getE] at h
      | cons n q =>
          simp only [delete_path]
          have : delD n q e = e := delD_noop q n e hw (by simpa [fsGet] using h)
          rw [this]

theorem delD_append (m : String) (rel : List String) (n : String)
    (ds : List (String × Entry)) :
    delD m (rel ++ [n]) (.dir ds) =
      .dir (ds.map fun x => if x.1 == m then (x.1, delPath (rel ++ [n]) x.2) else x) := by
  cases rel <;> simp [delD, delPath]

theorem getE_del_child (rel : List String) (n : String) (e : Entry)
    (cs : List (String × Entry)) (h : getE rel e = some (.dir cs)) :
    getE rel (delPath (rel ++ [n]) e) =
      some (.dir (cs.filter fun x => !(x.1 == n))) := by
  induction rel generalizing e with
  | nil =>
      simp only [getE] at h
      obtain rfl : e = .dir cs := by injection h
      simp [delPath, delD, getE]
  | cons m rel ih =>
      cases e with
      | file c => simp [getE] at h
      | dir ds =>
          simp only [getE] at h
          cases hf : ds.find? (fun x => x.1 == m) with
          | none => rw [hf] at h; simp at h
          | some x =>
              rw [hf] at h
              have hkx := find?_key _ _ _ hf
              show getE (m :: rel) (delD m (rel ++ [n]) (.dir ds)) = _
              rw [delD_append]
              simp only [getE]
              rw [List.find?_map]
              have hpf : ((fun y : String × Entry => y.1 == m) ∘
                  (fun y : String × Entry =>
                    if y.1 == m then (y.1, delPath (rel ++ [n]) y.2) else y)) =
                  (fun y : String × Entry => y.1 == m) := by
                funext y
                by_cases hy : y.1 = m <;> simp [hy]
              rw [hpf, hf]
              simp [hkx]
              exact ih x.2 h

theorem delete_path_cons (e : Entry) (p : List String) (hp : p ≠ []) :
    delete_path (some e) p = some (delPath p e) := by
  cases p with
  | nil => exact absurd rfl hp
  | cons n q => rfl

theorem fsGet_del_child (s : FS) (rel : List String) (n : String)
    (cs : List (String × Entry)) (h : fsGet s rel = some (.dir cs)) :
    fsGet (delete_path s (rel ++ [n])) rel =
      some (.dir (cs.filter fun x => !(x.1 == n))) := by
  cases s with
  | none => simp [fsGet] at h
  | some e =>
      rw [delete_path_cons e (rel ++ [n]) (by simp)]
      simpa [fsGet] using getE_del_child rel n e cs (by simpa [fsGet] using h)

theorem fsGet_del_fold (ns : List String) (s : FS) (rel : List String)
    (cs : List (String × Entry)) (h : fsGet s rel = some (.dir cs)) :
    fsGet (ns.foldl (fun a n => delete_path a (rel ++ [n])) s) rel =
      some (.dir (cs.filter fun x => !(ns.contains x.1))) := by
  induction ns generalizing s cs with
  | nil => simpa using h
  | cons n ns ih =>
      have h1 := fsGet_del_child s rel n cs h
      have h2 := ih (delete_path s (rel ++ [n])) _ h1
      rw [List.foldl_cons, h2, List.filter_filter]
      have hpq : ∀ y ∈ cs,
          (!ns.contains (Prod.fst y) && !(Prod.fst y == n)) =
            !((n :: ns).contains (Prod.fst y)) := by
        intro y _
        by_cases hyn : y.1 = n <;>
          simp [List.contains_cons, Bool.not_or, Bool.and_comm, hyn]
      rw [List.filter_congr hpq]

theorem entryInd (motive : Entry → Prop)
    (hfile : ∀ c, motive (.file c))
    (hdir : ∀ cs, (∀ x ∈ cs, motive x.2) → motive (.dir cs)) :
    ∀ e, motive e := by
  suffices h : ∀ (k : Nat) (e : Entry), sizeOf e ≤ k → motive e by
    exact fun e => h (sizeOf e) e le_rfl
  intro k
  induction k with
  | zero =>
      intro e he
      exact absurd he (by cases e <;> simp_arith)
  | succ k ih =>
      intro e he
      cases e with
      | file c => exact hfile c
      | dir cs =>
          apply hdir
          intro x hx
          apply ih
          have h1 := List.sizeOf_lt_of_mem hx
          have h2 := sizeOf_snd_lt_entryPair x
          simp_arith at he
          omega

theorem process_rule_jstr (rel : List String) (str : String) (s : FS) :
    process_rule rel (.jstr str) s =
      if str == "delete" then delete_path s rel else s := by
  rw [process_rule]

theorem process_rule_jdict_nil (rel : List String) (s : FS) :
    process_rule rel (.jdict .nil) s = s := by
  rw [process_rule]

theorem process_rule_jdict_cons (rel : List String) (n : String) (v : JVal)
    (rest : JEntries) (s : FS) :
    process_rule rel (.jdict (.cons n v rest)) s =
      process_rule rel (.jdict rest) (process_rule (rel ++ [n]) v s) := by
  rw [process_rule]

theorem process_rule_jother (rel : List String) (s : FS) :
    process_rule rel .jother s = s := by
  rw [process_rule]

theorem process_rule_arr_default (rel : List String) (elems : JList) (s : FS)
    (h : ∀ m decls, elems ≠ .cons (.jstr m) (.cons (.jdict decls) .nil)) :
    process_rule rel (.jarr elems) s = s := by
  cases elems with
  | nil => simp [process_rule]
  | cons v1 rest1 =>
      cases rest1 with
      | nil => cases v1 <;> simp [process_rule]
      | cons v2 rest2 =>
          cases rest2 with
          | nil =>
              cases v1 with
              | jstr m =>
                  cases v2 with
                  | jdict decls => exact absurd rfl (h m decls)
                  | jstr s2 => simp [process_rule]
                  | jarr l => simp [process_rule]
                  | jother => simp [process_rule]
              | jdict d => cases v2 <;> simp [process_rule]
              | jarr l => cases v2 <;> simp [process_rule]
              | jother => cases v2 <;> simp [process_rule]
          | cons v3 rest3 => cases v1 <;> cases v2 <;> simp [process_rule]

theorem process_rule_arr_nodir (rel : List String) (m : String) (decls : JEntries)
    (s : FS) (h : ∀ cs, fsGet s rel ≠ some (Entry.dir cs)) :
    process_rule rel (.jarr (.cons (.jstr m) (.cons (.jdict decls) .nil))) s = s := by
  rw [process_rule]
  by_cases hm : (m == "preserve" || m == "delete") = true
  · cases hf : fsGet s rel with
    | none => simp [hm, hf]
    | some e =>
        cases e with
        | file c => simp [hm, hf]
        | dir cs => exact absurd hf (h cs)
  · simp [hm]

theorem process_rule_preserve (rel : List String) (decls : JEntries) (s : FS)
    (cs : List (String × Entry)) (h : fsGet s rel = some (Entry.dir cs)) :
    process_rule rel (.jarr (.cons (.jstr "preserve") (.cons (.jdict decls) .nil))) s =
      process_rule rel (.jdict decls)
        (((cs.map Prod.fst).filter fun n => !(decls.keys.contains n)).foldl
          (fun a n => delete_path a (rel ++ [n])) s) := by
  rw [process_rule]
  simp [h]

theorem process_rule_deleteMode (rel : List String) (decls : JEntries) (s : FS)
    (cs : List (String × Entry)) (h : fsGet s rel = some (Entry.dir cs)) :
    process_rule rel (.jarr (.cons (.jstr "delete") (.cons (.jdict decls) .nil))) s =
      process_rule rel (.jdict decls) s := by
  rw [process_rule]
  simp [h]

theorem process_rule_arr_badmode (rel : List String) (m : String) (decls : JEntries)
    (s : FS) (h : (m == "preserve" || m == "delete") = false) :
    process_rule rel (.jarr (.cons (.jstr m) (.cons (.jdict decls) .nil))) s = s := by
  rw [process_rule]
  simp [h]

theorem ESubL_iff (cs2 cs1 : List (String × Entry)) :
    ESubL cs2 cs1 ↔ ∀ n x2, cs2.find? (fun x => x.1 == n) = some x2 →
      ∃ x1, cs1.find? (fun x => x.1 == n) = some x1 ∧ ESub x2.2 x1.2 := by
  rw [ESubL]
  constructor
  · intro h n x2 hf
    have h2 := h n x2 hf
    cases hf1 : cs1.find? (fun x => x.1 == n) with
    | none => rw [hf1] at h2; exact h2.elim
    | some x1 =>
        rw [hf1] at h2
        exact ⟨x1, rfl, h2⟩
  · intro h n x2 hf
    obtain ⟨x1, hf1, hs⟩ := h n x2 hf
    rw [hf1]
    exact hs

theorem ESub_file_iff (c : String) (e : Entry) :
    ESub (.file c) e ↔ e = .file c := by
  rw [ESub]

theorem ESub_dir_dir (cs2 cs1 : List (String × Entry)) :
    ESub (.dir cs2) (.dir cs1) ↔ ESubL cs2 cs1 := by
  rw [ESub]

theorem ESub_dir_file (cs : List (String × Entry)) (c : String) :
    ¬ ESub (.dir cs) (.file c) := by
  rw [ESub]
  exact id

theorem ESub_refl : ∀ e, ESub e e := by
  refine entryInd _ ?_ ?_
  · intro c
    rw [ESub]
  · intro cs ih
    rw [ESub_dir_dir, ESubL_iff]
    intro n x2 hf
    exact ⟨x2, hf, ih x2 (List.mem_of_find?_eq_some hf)⟩

theorem find?_filter_of_imp {α : Type} (l : List α) (p q : α → Bool)
    (h : ∀ x, p x = true → q x = true) :
    (l.filter q).find? p = l.find? p := by
  induction l with
  | nil => rfl
  | cons a l ih =>
      cases hq : q a with
      | true =>
          rw [List.filter_cons_of_pos hq]
          cases hp : p a with
          | true => simp [List.find?_cons, hp]
          | false => simp [List.find?_cons, hp, ih]
      | false =>
          rw [List.filter_cons_of_neg (by simp [hq])]
          have hp : p a = false := by
            cases hpa : p a with
            | false => rfl
            | true => rw [h a hpa] at hq; cases hq
          simp [List.find?_cons, hp, ih]

theorem delD_esub (q : List String) (n : String) (e : Entry) :
    ESub (delD n q e) e := by
  induction q generalizing n e with
  | nil =>
      cases e with
      | file c => simp [delD, ESub]
      | dir cs =>
          show ESub (.dir (cs.filter fun x => !(x.1 == n))) (.dir cs)
          rw [ESub_dir_dir, ESubL_iff]
          intro m x2 hf
          by_cases hmn : m = n
          · subst hmn
            have : (cs.filter fun x => !(x.1 == m)).find? (fun x => x.1 == m) = none := by
              rw [List.find?_eq_none]
              intro x hx
              have := (List.mem_filter.mp hx).2
              simpa using this
            rw [this] at hf
            cases hf
          · rw [find?_filter_of_imp cs _ _ (by
              intro x hx
              have : x.1 = m := by simpa using hx
              simp [this, hmn])] at hf
            exact ⟨x2, hf, ESub_refl x2.2⟩
  | cons m1 q ih =>
      cases e with
      | file c => simp [delD, ESub]
      | dir cs =>
          show ESub (.dir (cs.map fun x =>
            if x.1 == n then (x.1, delD m1 q x.2) else x)) (.dir cs)
          rw [ESub_dir_dir, ESubL_iff]
          intro m x2 hf
          rw [List.find?_map] at hf
          have hpf : ((fun y : String × Entry => y.1 == m) ∘
              (fun y : String × Entry => if y.1 == n then (y.1, delD m1 q y.2) else y)) =
              (fun y : String × Entry => y.1 == m) := by
            funext y
            by_cases hy : y.1 = n <;> simp [hy]
          rw [hpf] at hf
          cases hf1 : cs.find? (fun x => x.1 == m) with
          | none => rw [hf1] at hf; cases hf
          | some x1 =>
              rw [hf1] at hf
              refine ⟨x1, rfl, ?_⟩
              have hx2 : x2 = if x1.1 == n then (x1.1, delD m1 q x1.2) else x1 := by
                injection hf with hf2
                exact hf2.symm
              subst hx2
              by_cases hk : x1.1 = n
              · simp only [hk, beq_self_eq_true, if_pos]
                exact ih m1 x1.2
              · simp only [hk, beq_iff_eq, if_neg]
                exact ESub_refl x1.2

theorem getE_esub (p : List String) (e2 e1 : Entry) (h : ESub e2 e1)
    (x2 : Entry) (hg : getE p e2 = some x2) :
    ∃ x1, getE p e1 = some x1 ∧ ESub x2 x1 := by
  induction p generalizing e2 e1 with
  | nil =>
      simp only [getE] at hg
      obtain rfl : e2 = x2 := by injection hg
      exact ⟨e1, rfl, h⟩
  | cons n p ih =>
      cases e2 with
      | file c => simp [getE] at hg
      | dir cs2 =>
          cases e1 with
          | file c => exact absurd h (ESub_dir_file cs2 c)
          | dir cs1 =>
              rw [ESub_dir_dir, ESubL_iff] at h
              simp only [getE] at hg
              cases hf : cs2.find? (fun x => x.1 == n) with
              | none => rw [hf] at hg; cases hg
              | some y2 =>
                  rw [hf] at hg
                  obtain ⟨y1, hf1, hsub⟩ := h n y2 hf
                  obtain ⟨x1, hg1, hsub2⟩ := ih y2.2 y1.2 hsub hg
                  refine ⟨x1, ?_, hsub2⟩
                  simp only [getE, hf1]
                  exact hg1

theorem kindLike_of_esub (a b : Entry) (h : ESub a b) : kindLike a b := by
  cases a with
  | file c =>
      rw [ESub_file_iff] at h
      simp [kindLike, h]
  | dir cs =>
      cases b with
      | dir cs1 => simp [kindLike]
      | file c => exact absurd h (ESub_dir_file cs c)

theorem kindLike_refl (e : Entry) : kindLike e e := by
  cases e <;> simp [kindLike]

theorem kindLike_trans (a b c : Entry) (h1 : kindLike a b) (h2 : kindLike b c) :
    kindLike a c := by
  cases a <;> cases b <;> cases c <;> simp_all [kindLike]

theorem SubFS_refl (s : FS) : SubFS s s :=
  fun _ e2 h => ⟨e2, h, kindLike_refl e2⟩

theorem SubFS_trans (t u s : FS) (h1 : SubFS t u) (h2 : SubFS u s) : SubFS t s := by
  intro p e2 hg
  obtain ⟨e1, hg1, hk⟩ := h1 p e2 hg
  obtain ⟨e0, hg0, hk0⟩ := h2 p e1 hg1
  exact ⟨e0, hg0, kindLike_trans _ _ _ hk hk0⟩

theorem delete_path_sub (s : FS) (p : List String) : SubFS (delete_path s p) s := by
  cases s with
  | none => intro p2 e2 h; simp [delete_path, fsGet] at h
  | some e =>
      cases p with
      | nil => intro p2 e2 h; simp [delete_path, fsGet] at h
      | cons n q =>
          intro p2 x2 hg
          simp only [delete_path, fsGet, Option.bind_some] at hg ⊢
          obtain ⟨x1, h1, hsub⟩ := getE_esub p2 _ e (delD_esub q n e) x2 hg
          exact ⟨x1, h1, kindLike_of_esub _ _ hsub⟩

theorem SubFS_del_fold (ns : List String) (rel : List String) (s : FS) :
    SubFS (ns.foldl (fun a n => delete_path a (rel ++ [n])) s) s := by
  induction ns generalizing s with
  | nil => exact SubFS_refl s
  | cons n ns ih =>
      rw [List.foldl_cons]
      exact SubFS_trans _ _ _ (ih (delete_path s (rel ++ [n])))
        (delete_path_sub s (rel ++ [n]))

theorem process_rule_sub (rel : List String) (r : JVal) (s : FS) :
    SubFS (process_rule rel r s) s := by
  induction rel, r, s using process_rule.induct with
  | case1 rel s str h =>
      rw [process_rule_jstr, if_pos h]
      exact delete_path_sub s rel
  | case2 rel s str h =>
      rw [process_rule_jstr, if_neg h]
      exact SubFS_refl s
  | case3 rel s =>
      rw [process_rule_jdict_nil]
      exact SubFS_refl s
  | case4 rel s n v rest ih1 ih2 =>
      rw [process_rule_jdict_cons]
      exact SubFS_trans _ _ _ ih2 ih1
  | case5 rel s m decls hm cs hfs hp declared to_delete s1 ih =>
      have hmp : m = "preserve" := by simpa using hp
      subst hmp
      rw [process_rule_preserve rel decls s cs hfs]
      exact SubFS_trans _ _ _ ih (SubFS_del_fold _ rel s)
  | case6 rel s m decls hm cs hfs hp ih =>
      have hmd : m = "delete" := by
        have := hm
        simp only [Bool.or_eq_true, beq_iff_eq] at this
        rcases this with h1 | h1
        · exact absurd (by simp [h1]) hp
        · exact h1
      subst hmd
      rw [process_rule_deleteMode rel decls s cs hfs]
      exact ih
  | case7 rel s m decls hm h =>
      rw [process_rule_arr_nodir rel m decls s (fun cs hc => h cs hc)]
      exact SubFS_refl s
  | case8 rel s m decls hm =>
      rw [process_rule_arr_badmode rel m decls s (by simpa using hm)]
      exact SubFS_refl s
  | case9 rel s elems h =>
      rw [process_rule_arr_default rel elems s (fun m decls he => h m decls he)]
      exact SubFS_refl s
  | case10 rel s =>
      rw [process_rule_jother]
      exact SubFS_refl s

theorem contains_eq_true_iff (l : List String) (a : String) :
    l.contains a = true ↔ a ∈ l := by
  induction l with
  | nil => simp
  | cons b l ih => simp [List.contains_cons, ih]

theorem wfE_delD (q : List String) (n : String) (e : Entry)
    (hw : wfE e = true) : wfE (delD n q e) = true := by
  induction q generalizing n e with
  | nil =>
      cases e with
      | file c => simpa [delD] using hw
      | dir cs =>
          rcases (wfE_dir_iff cs).mp hw with ⟨hnd, hws⟩
          show wfE (.dir (cs.filter fun x => !(x.1 == n))) = true
          rw [wfE_dir_iff]
          constructor
          · exact List.Nodup.sublist (List.Sublist.map Prod.fst (List.filter_sublist cs)) hnd
          · intro x hx
            exact hws x (List.mem_of_mem_filter hx)
  | cons m q ih =>
      cases e with
      | file c => simpa [delD] using hw
      | dir cs =>
          rcases (wfE_dir_iff cs).mp hw with ⟨hnd, hws⟩
          show wfE (.dir (cs.map fun x =>
            if x.1 == n then (x.1, delD m q x.2) else x)) = true
          rw [wfE_dir_iff]
          constructor
          · have hkeys : ((cs.map fun x =>
                if x.1 == n then (x.1, delD m q x.2) else x).map Prod.fst) =
                cs.map Prod.fst := by
              rw [List.map_map]
              apply List.map_congr_left
              intro x _
              by_cases hx : x.1 = n <;> simp [hx]
            rw [hkeys]
            exact hnd
          · intro x hx
            obtain ⟨y, hy, rfl⟩ := List.mem_map.mp hx
            by_cases hk : y.1 = n
            · simp only [hk, beq_self_eq_true, if_pos]
              exact ih m y.2 (hws y hy)
            · simp only [hk, beq_iff_eq, if_neg]
              exact hws y hy

theorem wfFS_delete_path (s : FS) (p : List String) (hw : wfFS s) :
    wfFS (delete_path s p) := by
  cases s with
  | none => trivial
  | some e =>
      cases p with
      | nil => trivial
      | cons n q => exact wfE_delD q n e hw

theorem wfFS_del_fold (ns : List String) (rel : List String) (s : FS)
    (hw : wfFS s) :
    wfFS (ns.foldl (fun a n => delete_path a (rel ++ [n])) s) := by
  induction ns generalizing s with
  | nil => exact hw
  | cons n ns ih =>
      rw [List.foldl_cons]
      exact ih _ (wfFS_delete_path s (rel ++ [n]) hw)

theorem wf_process_rule (rel : List String) (r : JVal) (s : FS) (hw : wfFS s) :
    wfFS (process_rule rel r s) := by
  induction rel, r, s using process_rule.induct with
  | case1 rel s str h =>
      rw [process_rule_jstr, if_pos h]
      exact wfFS_delete_path s rel hw
  | case2 rel s str h =>
      rw [process_rule_jstr, if_neg h]
      exact hw
  | case3 rel s =>
      rw [process_rule_jdict_nil]
      exact hw
  | case4 rel s n v rest ih1 ih2 =>
      rw [process_rule_jdict_cons]
      exact ih2 (ih1 hw)
  | case5 rel s m decls hm cs hfs hp declared to_delete s1 ih =>
      have hmp : m = "preserve" := by simpa using hp
      subst hmp
      rw [process_rule_preserve rel decls s cs hfs]
      exact ih (wfFS_del_fold _ rel s hw)
  | case6 rel s m decls hm cs hfs hp ih =>
      have hmd : m = "delete" := by
        have h2 := hm
        simp only [Bool.or_eq_true, beq_iff_eq] at h2
        rcases h2 with h1 | h1
        · exact absurd (by simp [h1]) hp
        · exact h1
      subst hmd
      rw [process_rule_deleteMode rel decls s cs hfs]
      exact ih hw
  | case7 rel s m decls hm h =>
      rw [process_rule_arr_nodir rel m decls s (fun cs hc => h cs hc)]
      exact hw
  | case8 rel s m decls hm =>
      rw [process_rule_arr_badmode rel m decls s (by simpa using hm)]
      exact hw
  | case9 rel s elems h =>
      rw [process_rule_arr_default rel elems s (fun m decls he => h m decls he)]
      exact hw
  | case10 rel s =>
      rw [process_rule_jother]
      exact hw

theorem arr_shape_cases (elems : JList) :
    (∃ m decls, elems = .cons (.jstr m) (.cons (.jdict decls) .nil)) ∨
    (∀ m decls, elems ≠ .cons (.jstr m) (.cons (.jdict decls) .nil)) := by
  by_cases h : ∃ m decls, elems = .cons (.jstr m) (.cons (.jdict decls) .nil)
  · exact Or.inl h
  · right
    intro m decls he
    exact h ⟨m, decls, he⟩

theorem Sat_jstr (rel : List String) (str : String) (s : FS) :
    Sat rel (.jstr str) s ↔ (str = "delete" → fsGet s rel = none) := by
  rw [Sat]

theorem Sat_jdict_nil (rel : List String) (s : FS) : Sat rel (.jdict .nil) s := by
  rw [Sat]
  trivial

theorem Sat_jdict_cons (rel : List String) (n : String) (v : JVal)
    (rest : JEntries) (s : FS) :
    Sat rel (.jdict (.cons n v rest)) s ↔
      (Sat (rel ++ [n]) v s ∧ Sat rel (.jdict rest) s) := by
  rw [Sat]

theorem Sat_arr_good (rel : List String) (m : String) (decls : JEntries) (s : FS) :
    Sat rel (.jarr (.cons (.jstr m) (.cons (.jdict decls) .nil))) s ↔
      ((m = "preserve" ∨ m = "delete") →
        ∀ cs, fsGet s rel = some (Entry.dir cs) →
          ((m = "preserve" → ∀ x ∈ cs, x.1 ∈ decls.keys) ∧
            Sat rel (.jdict decls) s)) := by
  rw [Sat]

theorem Sat_jother (rel : List String) (s : FS) : Sat rel .jother s := by
  rw [Sat]
  trivial

theorem Sat_arr_default (rel : List String) (elems : JList) (s : FS)
    (h : ∀ m decls, elems ≠ .cons (.jstr m) (.cons (.jdict decls) .nil)) :
    Sat rel (.jarr elems) s := by
  cases elems with
  | nil => simp [Sat]
  | cons v1 rest1 =>
      cases rest1 with
      | nil => cases v1 <;> simp [Sat]
      | cons v2 rest2 =>
          cases rest2 with
          | nil =>
              cases v1 with
              | jstr m =>
                  cases v2 with
                  | jdict decls => exact absurd rfl (h m decls)
                  | jstr s2 => simp [Sat]
                  | jarr l => simp [Sat]
                  | jother => simp [Sat]
              | jdict d => cases v2 <;> simp [Sat]
              | jarr l => cases v2 <;> simp [Sat]
              | jother => cases v2 <;> simp [Sat]
          | cons v3 rest3 => cases v1 <;> cases v2 <;> simp [Sat]

theorem getE_single_isSome (cs : List (String × Entry)) (n : String) :
    (getE [n] (.dir cs)).isSome ↔ n ∈ cs.map Prod.fst := by
  rw [← find?_isSome_iff cs n]
  simp only [getE]
  cases hf : cs.find? (fun x => x.1 == n) <;> simp [hf]

theorem fsGet_child_isSome (s : FS) (rel : List String) (cs : List (String × Entry))
    (h : fsGet s rel = some (.dir cs)) (n : String) :
    (fsGet s (rel ++ [n])).isSome ↔ n ∈ cs.map Prod.fst := by
  rw [fsGet_append, h]
  simpa using getE_single_isSome cs n

theorem Sat_mono (r : JVal) (rel : List String) (s t : FS)
    (hsub : SubFS t s) (hsat : Sat rel r s) : Sat rel r t := by
  cases r with
  | jstr str =>
      rw [Sat_jstr] at hsat ⊢
      intro hd
      cases hg : fsGet t rel with
      | none => rfl
      | some e2 =>
          obtain ⟨e1, hg1, _⟩ := hsub rel e2 hg
          rw [hsat hd] at hg1
          cases hg1
  | jother => exact Sat_jother rel t
  | jdict es =>
      cases es with
      | nil => exact Sat_jdict_nil rel t
      | cons n v rest =>
          rw [Sat_jdict_cons] at hsat ⊢
          exact ⟨Sat_mono v (rel ++ [n]) s t hsub hsat.1,
                 Sat_mono (.jdict rest) rel s t hsub hsat.2⟩
  | jarr elems =>
      rcases arr_shape_cases elems with ⟨m, decls, rfl⟩ | hdef
      · rw [Sat_arr_good] at hsat ⊢
        intro hm cs2 hg2
        obtain ⟨e1, hg1, hk⟩ := hsub rel _ hg2
        cases e1 with
        | file c => exact absurd hk (by simp [kindLike])
        | dir cs1 =>
            obtain ⟨hnames, hsat2⟩ := hsat hm cs1 hg1
            refine ⟨?_, Sat_mono (.jdict decls) rel s t hsub hsat2⟩
            intro hp x hx
            have hx1 : x.1 ∈ cs2.map Prod.fst := List.mem_map_of_mem Prod.fst hx
            have hsome2 : (fsGet t (rel ++ [x.1])).isSome :=
              (fsGet_child_isSome t rel cs2 hg2 x.1).mpr hx1
            obtain ⟨e2, hge2⟩ := Option.isSome_iff_exists.mp hsome2
            obtain ⟨e1x, hge1, _⟩ := hsub (rel ++ [x.1]) e2 hge2
            have hmem1 : x.1 ∈ cs1.map Prod.fst :=
              (fsGet_child_isSome s rel cs1 hg1 x.1).mp (by simp [hge1])
            obtain ⟨y, hy, hyx⟩ := List.mem_map.mp hmem1
            have hky := hnames hp y hy
            rw [hyx] at hky
            exact hky
      · exact Sat_arr_default rel elems t hdef
termination_by sizeOf r
decreasing_by
  all_goals simp_wf
  all_goals subst_vars
  all_goals simp_arith

theorem process_rule_of_sat (r : JVal) (rel : List String) (s : FS)
    (hw : wfFS s) (hsat : Sat rel r s) : process_rule rel r s = s := by
  cases r with
  | jstr str =>
      rw [process_rule_jstr]
      by_cases hd : (str == "delete") = true
      · rw [if_pos hd]
        exact delete_path_noop s rel hw ((Sat_jstr rel str s).mp hsat (by simpa using hd))
      · rw [if_neg hd]
  | jother => exact process_rule_jother rel s
  | jdict es =>
      cases es with
      | nil => exact process_rule_jdict_nil rel s
      | cons n v rest =>
          rw [Sat_jdict_cons] at hsat
          rw [process_rule_jdict_cons,
            process_rule_of_sat v (rel ++ [n]) s hw hsat.1]
          exact process_rule_of_sat (.jdict rest) rel s hw hsat.2
  | jarr elems =>
      rcases arr_shape_cases elems with ⟨m, decls, rfl⟩ | hdef
      · rw [Sat_arr_good] at hsat
        by_cases hm : (m == "preserve" || m == "delete") = true
        · have hmp : m = "preserve" ∨ m = "delete" := by simpa using hm
          cases hfs : fsGet s rel with
          | none => exact process_rule_arr_nodir rel m decls s (by simp [hfs])
          | some e =>
              cases e with
              | file c => exact process_rule_arr_nodir rel m decls s (by simp [hfs])
              | dir cs =>
                  obtain ⟨hnames, hsat2⟩ := hsat hmp cs hfs
                  rcases hmp with hmp | hmd
                  · subst hmp
                    rw [process_rule_preserve rel decls s cs hfs]
                    have hnil : ((cs.map Prod.fst).filter fun n =>
                        !(decls.keys.contains n)) = [] := by
                      rw [List.filter_eq_nil_iff]
                      intro a ha
                      obtain ⟨x, hx, rfl⟩ := List.mem_map.mp ha
                      have hk := hnames rfl x hx
                      simp [hk]
                    rw [hnil]
                    simp only [List.foldl_nil]
                    exact process_rule_of_sat (.jdict decls) rel s hw hsat2
                  · subst hmd
                    rw [process_rule_deleteMode rel decls s cs hfs]
                    exact process_rule_of_sat (.jdict decls) rel s hw hsat2
        · exact process_rule_arr_badmode rel m decls s (by simpa using hm)
      · exact process_rule_arr_default rel elems s hdef
termination_by sizeOf r
decreasing_by
  all_goals simp_wf
  all_goals subst_vars
  all_goals simp_arith

theorem preserve_names_bound (rel : List String) (decls : JEntries) (s : FS)
    (cs : List (String × Entry)) (hfs : fsGet s rel = some (.dir cs))
    (cs2 : List (String × Entry))
    (hcs2 : fsGet (process_rule rel (.jdict decls)
      (((cs.map Prod.fst).filter fun n => !(decls.keys.contains n)).foldl
        (fun a n => delete_path a (rel ++ [n])) s)) rel = some (.dir cs2)) :
    ∀ x ∈ cs2, x.1 ∈ decls.keys := by
  intro x hx
  have hs1 := fsGet_del_fold
    ((cs.map Prod.fst).filter fun n => !(decls.keys.contains n)) s rel cs hfs
  have hsub := process_rule_sub rel (.jdict decls)
    (((cs.map Prod.fst).filter fun n => !(decls.keys.contains n)).foldl
      (fun a n => delete_path a (rel ++ [n])) s)
  have hx1 : x.1 ∈ cs2.map Prod.fst := List.mem_map_of_mem Prod.fst hx
  have hsome2 : (fsGet (process_rule rel (.jdict decls)
      (((cs.map Prod.fst).filter fun n => !(decls.keys.contains n)).foldl
        (fun a n => delete_path a (rel ++ [n])) s)) (rel ++ [x.1])).isSome :=
    (fsGet_child_isSome _ rel cs2 hcs2 x.1).mpr hx1
  obtain ⟨e2, hge2⟩ := Option.isSome_iff_exists.mp hsome2
  obtain ⟨e1x, hge1, _⟩ := hsub (rel ++ [x.1]) e2 hge2
  have hmem1 : x.1 ∈ (cs.filter fun y =>
      !(((cs.map Prod.fst).filter fun n =>
        !(decls.keys.contains n)).contains y.1)).map Prod.fst :=
    (fsGet_child_isSome _ rel _ hs1 x.1).mp (by rw [hge1]; rfl)
  obtain ⟨y, hy, hyx⟩ := List.mem_map.mp hmem1
  obtain ⟨hyc, hyf⟩ := List.mem_filter.mp hy
  by_cases hk : y.1 ∈ decls.keys
  · rw [← hyx]
    exact hk
  · exfalso
    have hyn : y.1 ∈ cs.map Prod.fst := List.mem_map_of_mem Prod.fst hyc
    have hmemdel : y.1 ∈ (cs.map Prod.fst).filter fun n =>
        !(decls.keys.contains n) :=
      List.mem_filter.mpr ⟨hyn, by simp [hk]⟩
    have hcon : (((cs.map Prod.fst).filter fun n =>
        !(decls.keys.contains n)).contains y.1) = true :=
      (contains_eq_true_iff _ _).mpr hmemdel
    rw [hcon] at hyf
    simp at hyf

theorem sat_after_process (r : JVal) (rel : List String) (s : FS) (hw : wfFS s) :
    Sat rel r (process_rule rel r s) := by
  cases r with
  | jstr str =>
      rw [process_rule_jstr]
      by_cases hd : (str == "delete") = true
      · rw [if_pos hd, Sat_jstr]
        intro _
        exact fsGet_delete_path_self s rel
      · rw [if_neg hd, Sat_jstr]
        intro hds
        exact absurd (by simp [hds]) hd
  | jother => exact Sat_jother rel _
  | jdict es =>
      cases es with
      | nil => exact Sat_jdict_nil rel _
      | cons n v rest =>
          rw [process_rule_jdict_cons, Sat_jdict_cons]
          constructor
          · exact Sat_mono v (rel ++ [n]) _ _
              (process_rule_sub rel (.jdict rest) _)
              (sat_after_process v (rel ++ [n]) s hw)
          · exact sat_after_process (.jdict rest) rel _
              (wf_process_rule (rel ++ [n]) v s hw)
  | jarr elems =>
      rcases arr_shape_cases elems with ⟨m, decls, rfl⟩ | hdef
      · by_cases hm : (m == "preserve" || m == "delete") = true
        · cases hfs : fsGet s rel with
          | none =>
              rw [process_rule_arr_nodir rel m decls s (by simp [hfs]), Sat_arr_good]
              intro _ cs hcs
              rw [hfs] at hcs
              cases hcs
          | some e =>
              cases e with
              | file c =>
                  rw [process_rule_arr_nodir rel m decls s (by simp [hfs]), Sat_arr_good]
                  intro _ cs hcs
                  rw [hfs] at hcs
                  cases hcs
              | dir cs =>
                  have hmp : m = "preserve" ∨ m = "delete" := by simpa using hm
                  rcases hmp with hmp | hmd
                  · subst hmp
                    rw [process_rule_preserve rel decls s cs hfs, Sat_arr_good]
                    intro _ cs2 hcs2
                    refine ⟨fun _ => preserve_names_bound rel decls s cs hfs cs2 hcs2, ?_⟩
                    exact sat_after_process (.jdict decls) rel _
                      (wfFS_del_fold _ rel s hw)
                  · subst hmd
                    rw [process_rule_deleteMode rel decls s cs hfs, Sat_arr_good]
                    intro _ cs2 hcs2
                    refine ⟨fun hpd => ?_, sat_after_process (.jdict decls) rel s hw⟩
                    exact absurd hpd (by decide)
        · rw [process_rule_arr_badmode rel m decls s (by simpa using hm), Sat_arr_good]
          intro hmp cs hcs
          exfalso
          rcases hmp with h1 | h1 <;> simp [h1] at hm
      · rw [process_rule_arr_default rel elems s hdef]
        exact Sat_arr_default rel elems s hdef
termination_by sizeOf r
decreasing_by
  all_goals simp_wf
  all_goals subst_vars
  all_goals simp_arith

theorem process_rule_idem (rel : List String) (r : JVal) (s : FS) (hw : wfFS s) :
    process_rule rel r (process_rule rel r s) = process_rule rel r s :=
  process_rule_of_sat r rel (process_rule rel r s)
    (wf_process_rule rel r s hw) (sat_after_process r rel s hw)

theorem process_rule_preserveOnly (r : JVal) (rel : List String) (s : FS)
    (h : preserveOnly r) : process_rule rel r s = s := by
  cases r with
  | jstr str =>
      rw [preserveOnly] at h
      subst h
      rw [process_rule_jstr, if_neg (by decide)]
  | jdict es =>
      cases es with
      | nil => exact process_rule_jdict_nil rel s
      | cons n v rest =>
          rw [preserveOnly] at h
          rw [process_rule_jdict_cons, process_rule_preserveOnly v (rel ++ [n]) s h.1]
          exact process_rule_preserveOnly (.jdict rest) rel s h.2
  | jarr elems =>
      rw [preserveOnly] at h
      exact h.elim
  | jother => exact process_rule_jother rel s
termination_by sizeOf r
decreasing_by
  all_goals simp_wf
  all_goals subst_vars
  all_goals simp_arith

theorem process_rule_jdict_append (a b : JEntries) (rel : List String) (s : FS) :
    process_rule rel (.jdict (a.append b)) s =
      process_rule rel (.jdict b) (process_rule rel (.jdict a) s) := by
  cases a with
  | nil => simp [JEntries.append, process_rule_jdict_nil]
  | cons n v rest =>
      show process_rule rel (.jdict (.cons n v (rest.append b))) s = _
      rw [process_rule_jdict_cons, process_rule_jdict_append rest b rel
        (process_rule (rel ++ [n]) v s), process_rule_jdict_cons]
termination_by sizeOf a
decreasing_by
  all_goals simp_wf

/-- C1: for every directory whose immediate entries are exactly named a, b, c,
evaluating the rule `["preserve", {"a": "preserve"}]` on that directory
removes entries b and c and leaves entry a present (with unchanged value). -/
theorem claim_C1 (cs : List (String × Entry))
    (h : ∀ n, n ∈ cs.map Prod.fst ↔ (n = "a" ∨ n = "b" ∨ n = "c")) :
    process_rule [] (.jarr (.cons (.jstr "preserve")
        (.cons (.jdict (.cons "a" (.jstr "preserve") .nil)) .nil)))
        (some (.dir cs)) =
      some (.dir (cs.filter fun x => x.1 == "a")) ∧
    (cs.filter fun x => x.1 == "a") ≠ [] := by
  have hfs : fsGet (some (Entry.dir cs)) [] = some (Entry.dir cs) := rfl
  constructor
  · rw [process_rule_preserve [] _ _ cs hfs]
    simp only [JEntries.keys]
    have hfold := fsGet_del_fold
      ((cs.map Prod.fst).filter fun n => !((["a"] : List String).contains n))
      (some (Entry.dir cs)) [] cs hfs
    rw [fsGet_nil] at hfold
    rw [hfold, process_rule_jdict_cons, process_rule_jstr, if_neg (by decide),
      process_rule_jdict_nil]
    congr 2
    apply List.filter_congr
    intro x hx
    have hxn : x.1 ∈ cs.map Prod.fst := List.mem_map_of_mem Prod.fst hx
    by_cases hxa : x.1 = "a"
    · have hmem : x.1 ∉ ((cs.map Prod.fst).filter fun n =>
          !((["a"] : List String).contains n)) := by
        intro hc
        have h2 := (List.mem_filter.mp hc).2
        simp [hxa] at h2
      have hcf : (((cs.map Prod.fst).filter fun n =>
          !((["a"] : List String).contains n)).contains x.1) = false := by
        cases hcc : (((cs.map Prod.fst).filter fun n =>
            !((["a"] : List String).contains n)).contains x.1) with
        | false => rfl
        | true => exact absurd ((contains_eq_true_iff _ _).mp hcc) hmem
      rw [hcf]
      simp [hxa]
    · have hmem : x.1 ∈ ((cs.map Prod.fst).filter fun n =>
          !((["a"] : List String).contains n)) :=
        List.mem_filter.mpr ⟨hxn, by simp [hxa]⟩
      have hct := (contains_eq_true_iff _ _).mpr hmem
      rw [hct]
      simp [hxa]
  · have ha : "a" ∈ cs.map Prod.fst := (h "a").mpr (Or.inl rfl)
    obtain ⟨x, hx, hxa⟩ := List.mem_map.mp ha
    intro hemp
    have hxin : x ∈ cs.filter fun x => x.1 == "a" :=
      List.mem_filter.mpr ⟨hx, by simp [hxa]⟩
    rw [hemp] at hxin
    cases hxin

/-- Witness for C1 at a concrete three-entry directory. -/
theorem claim_C1_witness :
    process_rule [] (.jarr (.cons (.jstr "preserve")
        (.cons (.jdict (.cons "a" (.jstr "preserve") .nil)) .nil)))
        (some (.dir [("a", Entry.file "1"), ("b", Entry.file "2"),
          ("c", Entry.dir [("z", Entry.file "9")])])) =
      some (.dir ([("a", Entry.file "1"), ("b", Entry.file "2"),
        ("c", Entry.dir [("z", Entry.file "9")])].filter fun x => x.1 == "a")) ∧
    ([(("a" : String), Entry.file "1"), ("b", Entry.file "2"),
      ("c", Entry.dir [("z", Entry.file "9")])].filter fun x => x.1 == "a") ≠ [] :=
  claim_C1 _ (by intro n; simp)

/-- C2: for every directory whose immediate entries are exactly named a, b, c,
evaluating the rule `["delete", {"a": "delete"}]` removes only entry a; the
other entries survive with their values untouched. -/
theorem claim_C2 (cs : List (String × Entry))
    (_h : ∀ n, n ∈ cs.map Prod.fst ↔ (n = "a" ∨ n = "b" ∨ n = "c")) :
    process_rule [] (.jarr (.cons (.jstr "delete")
        (.cons (.jdict (.cons "a" (.jstr "delete") .nil)) .nil)))
        (some (.dir cs)) =
      some (.dir (cs.filter fun x => !(x.1 == "a"))) := by
  rw [process_rule_deleteMode [] (JEntries.cons "a" (JVal.jstr "delete") JEntries.nil)
    (some (Entry.dir cs)) cs rfl, process_rule_jdict_cons,
    process_rule_jstr, if_pos (by decide), process_rule_jdict_nil]
  rfl

/-- Witness for C2 at a concrete three-entry directory. -/
theorem claim_C2_witness :
    process_rule [] (.jarr (.cons (.jstr "delete")
        (.cons (.jdict (.cons "a" (.jstr "delete") .nil)) .nil)))
        (some (.dir [("a", Entry.file "1"), ("b", Entry.file "2"),
          ("c", Entry.dir [("z", Entry.file "9")])])) =
      some (.dir ([("a", Entry.file "1"), ("b", Entry.file "2"),
        ("c", Entry.dir [("z", Entry.file "9")])].filter fun x => !(x.1 == "a"))) :=
  claim_C2 _ (by intro n; simp)

/-- C3: running the evaluator twice in succession on the same rule tree,
relative path and (well-formed, duplicate-free) filesystem state yields the
same final state as running it once. -/
theorem claim_C3 (rel : List String) (r : JVal) (s : FS) (hw : wfFS s) :
    process_rule rel r (process_rule rel r s) = process_rule rel r s :=
  process_rule_idem rel r s hw

/-- Witness for C3 on a concrete whitelist rule and directory. -/
theorem claim_C3_witness :
    process_rule ["ns"] (.jarr (.cons (.jstr "preserve")
        (.cons (.jdict (.cons "a" (.jstr "preserve") .nil)) .nil)))
      (process_rule ["ns"] (.jarr (.cons (.jstr "preserve")
        (.cons (.jdict (.cons "a" (.jstr "preserve") .nil)) .nil)))
        (some (.dir [("ns", Entry.dir [("a", Entry.file "1"), ("b", Entry.file "2")])]))) =
    process_rule ["ns"] (.jarr (.cons (.jstr "preserve")
        (.cons (.jdict (.cons "a" (.jstr "preserve") .nil)) .nil)))
        (some (.dir [("ns", Entry.dir [("a", Entry.file "1"), ("b", Entry.file "2")])])) :=
  claim_C3 _ _ _ (by simp [wfFS, wfE, wfL])

/-- C4: a rule tree built only from the string leaf preserve and from
mappings deletes nothing: the filesystem state after evaluation equals the
state before. -/
theorem claim_C4 (r : JVal) (rel : List String) (s : FS) (h : preserveOnly r) :
    process_rule rel r s = s :=
  process_rule_preserveOnly r rel s h

/-- Witness for C4 on a concrete preserve-only mapping rule. -/
theorem claim_C4_witness :
    process_rule ["ns"] (.jdict (.cons "x" (.jstr "preserve")
        (.cons "y" (.jdict (.cons "z" (.jstr "preserve") .nil)) .nil)))
      (some (.dir [("ns", Entry.dir [("x", Entry.file "1")])])) =
    some (.dir [("ns", Entry.dir [("x", Entry.file "1")])]) :=
  claim_C4 _ _ _ (by simp [preserveOnly])

/-- C10: the rule evaluator only removes entries: every path present after
evaluation was present before, and surviving files keep their exact
content. -/
theorem claim_C10 (rel : List String) (r : JVal) (s : FS) (p : List String)
    (e2 : Entry) (h : fsGet (process_rule rel r s) p = some e2) :
    ∃ e1, fsGet s p = some e1 ∧ (∀ c, e2 = .file c → e1 = .file c) := by
  obtain ⟨e1, hg, hk⟩ := process_rule_sub rel r s p e2 h
  refine ⟨e1, hg, ?_⟩
  intro c hc
  subst hc
  simpa [kindLike] using hk

/-- Witness for C10: a trivially surviving file path. -/
theorem claim_C10_witness :
    ∃ e1, fsGet (some (Entry.file "x")) [] = some e1 ∧
      (∀ c, Entry.file "x" = Entry.file c → e1 = Entry.file c) :=
  claim_C10 [] .jother (some (Entry.file "x")) [] (Entry.file "x")
    (by rw [process_rule_jother]; rfl)

theorem legacy_arr_default (rel : List String) (elems : JList) (dry : Bool) (s : FS)
    (h : ∀ m decls, elems ≠ .cons (.jstr m) (.cons (.jdict decls) .nil)) :
    Legacy.process_rule rel (.jarr elems) dry s = s := by
  cases elems with
  | nil => simp [Legacy.process_rule]
  | cons v1 rest1 =>
      cases rest1 with
      | nil => cases v1 <;> simp [Legacy.process_rule]
      | cons v2 rest2 =>
          cases rest2 with
          | nil =>
              cases v1 with
              | jstr m =>
                  cases v2 with
                  | jdict decls => exact absurd rfl (h m decls)
                  | jstr s2 => simp [Legacy.process_rule]
                  | jarr l => simp [Legacy.process_rule]
                  | jother => simp [Legacy.process_rule]
              | jdict d => cases v2 <;> simp [Legacy.process_rule]
              | jarr l => cases v2 <;> simp [Legacy.process_rule]
              | jother => cases v2 <;> simp [Legacy.process_rule]
          | cons v3 rest3 => cases v1 <;> cases v2 <;> simp [Legacy.process_rule]

/-- C9: with `dry_run` disabled, the legacy evaluator computes exactly the
same final filesystem state as the modern evaluator, for every rule tree,
relative path and initial state. -/
theorem claim_C9 (rel : List String) (r : JVal) (s : FS) :
    Legacy.process_rule rel r false s = process_rule rel r s := by
  induction rel, r, s using process_rule.induct with
  | case1 rel s str h =>
      rw [process_rule_jstr, if_pos h, Legacy.process_rule]
      simp [h]
  | case2 rel s str h =>
      rw [process_rule_jstr, if_neg h, Legacy.process_rule]
      simp [h]
  | case3 rel s =>
      rw [process_rule_jdict_nil, Legacy.process_rule]
  | case4 rel s n v rest ih1 ih2 =>
      rw [process_rule_jdict_cons, Legacy.process_rule, ih1, ih2]
  | case5 rel s m decls hm cs hfs hp declared to_delete s1 ih =>
      have hmp : m = "preserve" := by simpa using hp
      subst hmp
      rw [process_rule_preserve rel decls s cs hfs, Legacy.process_rule]
      have hfun : (fun (a : FS) (n : String) =>
          if false then a else delete_path a (rel ++ [n])) =
          (fun (a : FS) (n : String) => delete_path a (rel ++ [n])) := by
        funext a n
        simp
      simp only [hfs, hfun, if_true, if_false]
      rw [ih, if_pos hm, if_pos hp]
  | case6 rel s m decls hm cs hfs hp ih =>
      have hmd : m = "delete" := by
        have h2 := hm
        simp only [Bool.or_eq_true, beq_iff_eq] at h2
        rcases h2 with h1 | h1
        · exact absurd (by simp [h1]) hp
        · exact h1
      subst hmd
      rw [process_rule_deleteMode rel decls s cs hfs, Legacy.process_rule]
      simp only [hfs]
      rw [ih, if_pos hm, if_neg hp]
  | case7 rel s m decls hm h =>
      rw [process_rule_arr_nodir rel m decls s (fun cs hc => h cs hc),
        Legacy.process_rule]
      cases hf : fsGet s rel with
      | none => simp [hf]
      | some e =>
          cases e with
          | file c => simp [hf]
          | dir cs => exact absurd hf (h cs)
  | case8 rel s m decls hm =>
      have hmf : (m == "preserve" || m == "delete") = false := by simpa using hm
      rw [process_rule_arr_badmode rel m decls s hmf, Legacy.process_rule]
      simp [hmf]
  | case9 rel s elems h =>
      rw [process_rule_arr_default rel elems s (fun m decls he => h m decls he)]
      exact legacy_arr_default rel elems false s (fun m decls he => h m decls he)
  | case10 rel s =>
      rw [process_rule_jother, Legacy.process_rule]

theorem malformed_list_rule (elems : JList) (rel2 : List String) (t : FS)
    (h : elems.length ≠ 2
      ∨ ((elems.toList)[0]? ≠ some (.jstr "preserve") ∧
          (elems.toList)[0]? ≠ some (.jstr "delete"))
      ∨ (∀ d, (elems.toList)[1]? ≠ some (.jdict d))
      ∨ fsGet t rel2 = none
      ∨ (∃ c, fsGet t rel2 = some (.file c))) :
    process_rule rel2 (.jarr elems) t = t ∧
    processWarnings rel2 (.jarr elems) t ≠ [] := by
  cases elems with
  | nil =>
      constructor
      · exact process_rule_arr_default rel2 _ t (by intro m decls he; cases he)
      · simp [processWarnings, JList.length]
  | cons v1 rest1 =>
      cases rest1 with
      | nil =>
          constructor
          · refine process_rule_arr_default rel2 _ t ?_
            intro m decls he
            injection he with h1 h2
            cases h2
          · simp [processWarnings, JList.length]
      | cons v2 rest2 =>
          cases rest2 with
          | cons v3 rest3 =>
              constructor
              · refine process_rule_arr_default rel2 _ t ?_
                intro m decls he
                injection he with h1 h2
                injection h2 with h3 h4
                cases h4
              · have hlen : ((JList.cons v1 (JList.cons v2
                    (JList.cons v3 rest3))).length != 2) = true := by
                  simp only [JList.length, bne_iff_ne, ne_eq]
                  omega
                simp [processWarnings, hlen]
          | nil =>
              cases v1 with
              | jdict d1 =>
                  constructor
                  · refine process_rule_arr_default rel2 _ t ?_
                    intro m decls he
                    injection he with h1 h2
                    exact JVal.noConfusion h1
                  · simp [processWarnings, JList.length]
              | jarr l1 =>
                  constructor
                  · refine process_rule_arr_default rel2 _ t ?_
                    intro m decls he
                    injection he with h1 h2
                    exact JVal.noConfusion h1
                  · simp [processWarnings, JList.length]
              | jother =>
                  constructor
                  · refine process_rule_arr_default rel2 _ t ?_
                    intro m decls he
                    injection he with h1 h2
                    exact JVal.noConfusion h1
                  · simp [processWarnings, JList.length]
              | jstr m =>
                  by_cases hm : (m == "preserve" || m == "delete") = true
                  · cases v2 with
                    | jstr s2 =>
                        constructor
                        · refine process_rule_arr_default rel2 _ t ?_
                          intro m2 decls he
                          injection he with h1 h2
                          injection h2 with h3 h4
                          exact JVal.noConfusion h3
                        · simp [processWarnings, JList.length, hm]
                    | jarr l2 =>
                        constructor
                        · refine process_rule_arr_default rel2 _ t ?_
                          intro m2 decls he
                          injection he with h1 h2
                          injection h2 with h3 h4
                          exact JVal.noConfusion h3
                        · simp [processWarnings, JList.length, hm]
                    | jother =>
                        constructor
                        · refine process_rule_arr_default rel2 _ t ?_
                          intro m2 decls he
                          injection he with h1 h2
                          injection h2 with h3 h4
                          exact JVal.noConfusion h3
                        · simp [processWarnings, JList.length, hm]
                    | jdict d =>
                        have hmp : m = "preserve" ∨ m = "delete" := by simpa using hm
                        rcases h with h1 | ⟨h2a, h2b⟩ | h3 | h4 | ⟨c, h5⟩
                        · exact absurd rfl h1
                        · exfalso
                          rcases hmp with hmm | hmm <;> subst hmm
                          · exact h2a rfl
                          · exact h2b rfl
                        · exact absurd rfl (h3 d)
                        · constructor
                          · refine process_rule_arr_nodir rel2 m d t ?_
                            intro cs hc
                            rw [h4] at hc
                            cases hc
                          · simp [processWarnings, JList.length, hm, h4]
                        · constructor
                          · refine process_rule_arr_nodir rel2 m d t ?_
                            intro cs hc
                            rw [h5] at hc
                            cases hc
                          · simp [processWarnings, JList.length, hm, h5]
                  · have hmf : (m == "preserve" || m == "delete") = false := by
                      simpa using hm
                    cases v2 with
                    | jdict d =>
                        refine ⟨process_rule_arr_badmode rel2 m d t hmf, ?_⟩
                        simp [processWarnings, JList.length, hmf]
                    | jstr s2 =>
                        refine ⟨process_rule_arr_default rel2 _ t ?_, ?_⟩
                        · intro m2 decls he
                          injection he with h1 h2
                          injection h2 with h3 h4
                          exact JVal.noConfusion h3
                        · simp [processWarnings, JList.length, hmf]
                    | jarr l2 =>
                        refine ⟨process_rule_arr_default rel2 _ t ?_, ?_⟩
                        · intro m2 decls he
                          injection he with h1 h2
                          injection h2 with h3 h4
                          exact JVal.noConfusion h3
                        · simp [processWarnings, JList.length, hmf]
                    | jother =>
                        refine ⟨process_rule_arr_default rel2 _ t ?_, ?_⟩
                        · intro m2 decls he
                          injection he with h1 h2
                          injection h2 with h3 h4
                          exact JVal.noConfusion h3
                        · simp [processWarnings, JList.length, hmf]

/-- C5: a malformed two-element list rule (wrong length, bad mode string,
non-object declarations, missing target, or non-directory target) emits a
diagnostic and leaves the filesystem unchanged, and the sibling rules of
the surrounding object rule are still evaluated exactly as if the
malformed rule were absent. -/
theorem claim_C5 (pre post : JEntries) (name : String) (elems : JList)
    (rel : List String) (s : FS)
    (h : elems.length ≠ 2
      ∨ ((elems.toList)[0]? ≠ some (.jstr "preserve") ∧
          (elems.toList)[0]? ≠ some (.jstr "delete"))
      ∨ (∀ d, (elems.toList)[1]? ≠ some (.jdict d))
      ∨ fsGet (process_rule rel (.jdict pre) s) (rel ++ [name]) = none
      ∨ (∃ c, fsGet (process_rule rel (.jdict pre) s) (rel ++ [name]) =
          some (.file c))) :
    process_rule (rel ++ [name]) (.jarr elems) (process_rule rel (.jdict pre) s) =
      process_rule rel (.jdict pre) s ∧
    processWarnings (rel ++ [name]) (.jarr elems)
      (process_rule rel (.jdict pre) s) ≠ [] ∧
    process_rule rel (.jdict (pre.append (.cons name (.jarr elems) post))) s =
      process_rule rel (.jdict (pre.append post)) s := by
  obtain ⟨h1, h2⟩ := malformed_list_rule elems (rel ++ [name])
    (process_rule rel (.jdict pre) s) h
  refine ⟨h1, h2, ?_⟩
  rw [process_rule_jdict_append, process_rule_jdict_cons, h1,
    process_rule_jdict_append]

/-- Witness for C5 with an array rule of wrong length among siblings. -/
theorem claim_C5_witness :
    process_rule ([] ++ ["bad"]) (.jarr .nil)
        (process_rule [] (.jdict .nil) (some (Entry.dir []))) =
      process_rule [] (.jdict .nil) (some (Entry.dir [])) ∧
    processWarnings ([] ++ ["bad"]) (.jarr .nil)
        (process_rule [] (.jdict .nil) (some (Entry.dir []))) ≠ [] ∧
    process_rule [] (.jdict (JEntries.nil.append
        (.cons "bad" (.jarr .nil) (.cons "b" (.jstr "preserve") .nil))))
        (some (Entry.dir [])) =
      process_rule [] (.jdict (JEntries.nil.append
        (.cons "b" (.jstr "preserve") .nil))) (some (Entry.dir [])) :=
  claim_C5 .nil (.cons "b" (.jstr "preserve") .nil) "bad" .nil [] (some (Entry.dir []))
    (Or.inl (by decide))

theorem pyIn_iff (needle hay : String) :
    pyIn needle hay = true ↔ needle.data <:+: hay.data := by
  simp [pyIn]

/-- C6 counterexample: on an existing but empty credits file the patcher
prepends a blank separator, so the result is not the bare signature plus a
trailing newline as the claim states. -/
theorem claim_C6_counterexample :
    modify_credits (some "S") (some "") = some "\n\nS\n" ∧
    (some ("\n\nS\n" : String) ≠ some (pyStrip "S" ++ "\n")) := by
  constructor
  · decide
  · decide

/-- C6 (amended): with a missing credits file the result is the template
signature plus a trailing newline; with an existing empty credits file and
a nonempty signature the result is a blank separator line followed by the
signature and a trailing newline; and a second run of the patcher never
changes the file again. -/
theorem claim_C6_amended (tmpl : String) :
    modify_credits (some tmpl) none = some (pyStrip tmpl ++ "\n") ∧
    (pyStrip tmpl ≠ "" →
      modify_credits (some tmpl) (some "") =
        some ("\n\n" ++ pyStrip tmpl ++ "\n")) ∧
    (∀ c, modify_credits (some tmpl) (modify_credits (some tmpl) c) =
      modify_credits (some tmpl) c) := by
  refine ⟨rfl, ?_, ?_⟩
  · intro hne
    have hfalse : pyIn (pyStrip tmpl) "" = false := by
      rw [Bool.eq_false_iff]
      intro htrue
      have hinf := (pyIn_iff _ _).mp htrue
      have : (pyStrip tmpl).data = [] := by
        simpa using List.eq_nil_of_infix_nil hinf
      exact hne (by
        cases htm : pyStrip tmpl with
        | mk l =>
            rw [htm] at this
            simp at this
            rw [this])
    show modify_credits (some tmpl) (some "") = _
    rw [modify_credits]
    simp only [hfalse, Bool.false_eq_true, if_false]
    rfl
  · intro c
    cases c with
    | none =>
        show modify_credits (some tmpl) (some (pyStrip tmpl ++ "\n")) = _
        rw [modify_credits]
        have htrue : pyIn (pyStrip tmpl) (pyStrip tmpl ++ "\n") = true := by
          rw [pyIn_iff]
          exact ⟨[], "\n".data, by simp⟩
        simp [htrue]
        rfl
    | some content =>
        by_cases hin : pyIn (pyStrip tmpl) content = true
        · have h1 : modify_credits (some tmpl) (some content) = some content := by
            rw [modify_credits]
            simp [hin]
          rw [h1, h1]
        · have hin2 : pyIn (pyStrip tmpl) content = false := by
            rwa [Bool.not_eq_true] at hin
          have h1 : modify_credits (some tmpl) (some content) =
              some (pyRstrip content ++ "\n\n" ++ pyStrip tmpl ++ "\n") := by
            rw [modify_credits]
            simp [hin2]
          rw [h1]
          rw [modify_credits]
          have htrue : pyIn (pyStrip tmpl)
              (pyRstrip content ++ "\n\n" ++ pyStrip tmpl ++ "\n") = true := by
            rw [pyIn_iff]
            refine ⟨(pyRstrip content).data ++ "\n\n".data, "\n".data, ?_⟩
            simp
          simp [htrue]

/-- Witness for C6 (amended) at a concrete nonempty template. -/
theorem claim_C6_amended_witness :
    modify_credits (some "S") (some "") = some ("\n\n" ++ pyStrip "S" ++ "\n") :=
  (claim_C6_amended "S").2.1 (by decide)

theorem splitNl_ne_nil (s : List Char) : splitNl s ≠ [] := by
  induction s with
  | nil => simp [splitNl]
  | cons c cs ih =>
      by_cases hc : c = '\n'
      · simp [splitNl, hc]
      · rw [splitNl, if_neg hc]
        cases hs : splitNl cs with
        | nil => simp
        | cons l ls => simp

theorem splitNl_no_nl (s : List Char) : ∀ l ∈ splitNl s, '\n' ∉ l := by
  induction s with
  | nil =>
      intro l hl
      simp [splitNl] at hl
      simp [hl]
  | cons c cs ih =>
      intro l hl
      by_cases hc : c = '\n'
      · rw [splitNl, if_pos hc] at hl
        rcases List.mem_cons.mp hl with rfl | h2
        · simp
        · exact ih l h2
      · rw [splitNl, if_neg hc] at hl
        cases hs : splitNl cs with
        | nil =>
            rw [hs] at hl
            have : l = [c] := by simpa using hl
            subst this
            simp [Ne.symm hc]
        | cons l0 ls =>
            rw [hs] at hl
            rcases List.mem_cons.mp hl with rfl | h2
            · intro hmem
              rcases List.mem_cons.mp hmem with heq | h3
              · exact hc heq.symm
              · exact ih l0 (by rw [hs]; exact List.mem_cons_self l0 ls) h3
            · exact ih l (by rw [hs]; exact List.mem_cons_of_mem l0 h2)

theorem splitNl_of_no_nl (l : List Char) (h : '\n' ∉ l) : splitNl l = [l] := by
  induction l with
  | nil => rfl
  | cons c cs ih =>
      have hc : c ≠ '\n' := by
        intro hcc
        exact h (by simp [hcc])
      rw [splitNl, if_neg hc, ih (by intro hm; exact h (by simp [hm]))]

theorem splitNl_append_nl (l t : List Char) (h : '\n' ∉ l) :
    splitNl (l ++ '\n' :: t) = l :: splitNl t := by
  induction l with
  | nil => simp [splitNl]
  | cons c cs ih =>
      have hc : c ≠ '\n' := by
        intro hcc
        exact h (by simp [hcc])
      rw [List.cons_append, splitNl, if_neg hc,
        ih (by intro hm; exact h (by simp [hm]))]

theorem splitNl_joinNl (ls : List (List Char)) (hne : ls ≠ [])
    (hnl : ∀ l ∈ ls, '\n' ∉ l) : splitNl (joinNl ls) = ls := by
  induction ls with
  | nil => exact absurd rfl hne
  | cons l rest ih =>
      cases rest with
      | nil =>
          show splitNl (joinNl [l]) = [l]
          rw [show joinNl [l] = l from rfl]
          exact splitNl_of_no_nl l (hnl l (by simp))
      | cons r rest2 =>
          show splitNl (joinNl (l :: r :: rest2)) = l :: r :: rest2
          rw [show joinNl (l :: r :: rest2) = l ++ '\n' :: joinNl (r :: rest2) from rfl]
          rw [splitNl_append_nl l _ (hnl l (by simp))]
          rw [ih (by simp) (fun x hx => hnl x (List.mem_cons_of_mem l hx))]

theorem patchDescLines_spec (l0 : List Char) (rest : List (List Char)) :
    ∃ l1 rest2, patchDescLines (l0 :: rest) = l1 :: descSecond :: rest2 ∧
      descPfx.isPrefixOf l1 = true ∧ (l1 = l0 ∨ l1 = descPfx ++ l0) ∧
      (∀ l ∈ rest2, l ∈ rest) := by
  by_cases hp : descPfx.isPrefixOf l0 = true
  · cases rest with
    | nil => exact ⟨l0, [], by simp [patchDescLines, hp], hp, Or.inl rfl, by simp⟩
    | cons r rest2 =>
        exact ⟨l0, rest2, by simp [patchDescLines, hp], hp, Or.inl rfl,
          fun l hl => List.mem_cons_of_mem r hl⟩
  · have hp2 : descPfx.isPrefixOf (descPfx ++ l0) = true := by
      rw [List.isPrefixOf_iff_prefix]
      exact List.prefix_append descPfx l0
    cases rest with
    | nil =>
        exact ⟨descPfx ++ l0, [], by simp [patchDescLines, hp], hp2,
          Or.inr rfl, by simp⟩
    | cons r rest2 =>
        exact ⟨descPfx ++ l0, rest2, by simp [patchDescLines, hp], hp2,
          Or.inr rfl, fun l hl => List.mem_cons_of_mem r hl⟩

theorem patchDescLines_stable (l1 : List Char) (rest2 : List (List Char))
    (hp : descPfx.isPrefixOf l1 = true) :
    patchDescLines (l1 :: descSecond :: rest2) = l1 :: descSecond :: rest2 := by
  simp [patchDescLines, hp]

theorem patchDesc_split (d : String) :
    splitNl ((patchDesc d).data) = patchDescLines (splitNl d.data) ∧
    (∀ l ∈ patchDescLines (splitNl d.data), '\n' ∉ l) ∧
    patchDescLines (splitNl d.data) ≠ [] := by
  have hnl0 : ∀ l ∈ splitNl d.data, '\n' ∉ l := splitNl_no_nl d.data
  cases hs : splitNl d.data with
  | nil => exact absurd hs (splitNl_ne_nil d.data)
  | cons l0 rest =>
      rw [hs] at hnl0
      obtain ⟨l1, rest2, heq, hp, hl1, hsub⟩ := patchDescLines_spec l0 rest
      have hnl : ∀ l ∈ patchDescLines (l0 :: rest), '\n' ∉ l := by
        rw [heq]
        intro l hl
        rcases List.mem_cons.mp hl with rfl | hl2
        · rcases hl1 with h1 | h1
          · rw [h1]
            exact hnl0 l0 (List.mem_cons_self l0 rest)
          · rw [h1]
            intro hm
            rcases List.mem_append.mp hm with hm1 | hm1
            · revert hm1
              decide
            · exact hnl0 l0 (List.mem_cons_self l0 rest) hm1
        · rcases List.mem_cons.mp hl2 with rfl | hl3
          · decide
          · exact hnl0 l (List.mem_cons_of_mem l0 (hsub l hl3))
      refine ⟨?_, hnl, ?_⟩
      · show splitNl (joinNl (patchDescLines (splitNl d.data))) = _
        rw [hs]
        exact splitNl_joinNl _ (by rw [heq]; simp) hnl
      · rw [heq]
        simp

/-- C7: for every description string, after the patcher runs the first line
of the new description starts with the fixed prefix token and the second
line equals the fixed attribution token exactly; running the patcher again
changes nothing; and the document is rewritten exactly when the
reconstructed description differs from the original. -/
theorem claim_C7 (d : String) :
    (∃ l1 rest2, splitNl ((patchDesc d).data) = l1 :: descSecond :: rest2 ∧
      descPfx.isPrefixOf l1 = true) ∧
    patchDesc (patchDesc d) = patchDesc d ∧
    ((modify_pack_mcmeta d).2 = true ↔ patchDesc d ≠ d) ∧
    (modify_pack_mcmeta (patchDesc d)).2 = false := by
  obtain ⟨hsplit, hnl, hne⟩ := patchDesc_split d
  have hidem : patchDesc (patchDesc d) = patchDesc d := by
    show String.mk (joinNl (patchDescLines (splitNl (patchDesc d).data))) = _
    rw [hsplit]
    cases hs : splitNl d.data with
    | nil => exact absurd hs (splitNl_ne_nil d.data)
    | cons l0 rest =>
        obtain ⟨l1, rest2, heq, hp, _, _⟩ := patchDescLines_spec l0 rest
        rw [heq, patchDescLines_stable l1 rest2 hp]
        show _ = String.mk (joinNl (patchDescLines (splitNl d.data)))
        rw [hs, heq]
  refine ⟨?_, hidem, ?_, ?_⟩
  · cases hs : splitNl d.data with
    | nil => exact absurd hs (splitNl_ne_nil d.data)
    | cons l0 rest =>
        obtain ⟨l1, rest2, heq, hp, _, _⟩ := patchDescLines_spec l0 rest
        refine ⟨l1, rest2, ?_, hp⟩
        rw [hsplit, hs, heq]
  · simp [modify_pack_mcmeta, bne_iff_ne]
  · simp [modify_pack_mcmeta, hidem]

theorem find?_eq_of_nodup {α : Type} {cs : List (String × α)}
    (h : (cs.map Prod.fst).Nodup) {x : String × α} (hx : x ∈ cs) :
    cs.find? (fun y => y.1 == x.1) = some x := by
  cases hf : cs.find? (fun y => y.1 == x.1) with
  | none =>
      have hs : (cs.find? (fun y => y.1 == x.1)).isSome := by
        rw [find?_isSome_iff]
        exact List.mem_map_of_mem Prod.fst hx
      rw [hf] at hs
      simp at hs
  | some y =>
      have hy := List.mem_of_find?_eq_some hf
      have hk := find?_key cs x.1 y hf
      exact congrArg some (keys_nodup_inj h hy hx hk)

theorem any_key_iff {α : Type} (cs : List (String × α)) (n : String) :
    cs.any (fun x => x.1 == n) = true ↔ (cs.find? (fun y => y.1 == n)).isSome := by
  rw [find?_isSome_iff, List.any_eq_true]
  constructor
  · rintro ⟨x, hx, hpx⟩
    have hxn : x.1 = n := by simpa using hpx
    rw [← hxn]
    exact List.mem_map_of_mem Prod.fst hx
  · intro hm
    obtain ⟨x, hx, hfx⟩ := List.mem_map.mp hm
    exact ⟨x, hx, by simp [hfx]⟩

theorem rglobL_none_iff (cs : List (String × Entry)) :
    rglobL cs = none ↔ ∀ x ∈ cs, rglobPM x.2 = none := by
  induction cs with
  | nil => simp [rglobL]
  | cons x xs ih =>
      rw [rglobL]
      cases hg : rglobPM x.2 with
      | some p => simp [hg]
      | none => simp [hg, ih]

theorem rglobPM_none_iff (e : Entry) (hwf : wfE e = true) :
    rglobPM e = none ↔ ∀ p, getE (p ++ ["pack.mcmeta"]) e = none := by
  induction e using entryInd with
  | hfile c =>
      rw [rglobPM]
      constructor
      · intro _ p
        cases p <;> rfl
      · intro _
        rfl
  | hdir cs ih =>
      obtain ⟨hnd, hall⟩ := (wfE_dir_iff cs).mp hwf
      rw [rglobPM]
      by_cases ha : cs.any (fun x => x.1 == "pack.mcmeta") = true
      · rw [if_pos ha]
        constructor
        · intro h
          exact absurd h (by simp)
        · intro h
          exfalso
          have hs := (any_key_iff cs "pack.mcmeta").mp ha
          have h0 : getE ([] ++ ["pack.mcmeta"]) (Entry.dir cs) = none := h []
          rw [List.nil_append] at h0
          simp only [getE] at h0
          cases hf : cs.find? (fun y => y.1 == "pack.mcmeta") with
          | none =>
              rw [hf] at hs
              simp at hs
          | some x =>
              rw [hf] at h0
              simp at h0
      · rw [if_neg ha]
        rw [rglobL_none_iff]
        constructor
        · intro h p
          cases p with
          | nil =>
              rw [List.nil_append]
              simp only [getE]
              cases hf : cs.find? (fun x => x.1 == "pack.mcmeta") with
              | none => rfl
              | some x =>
                  exfalso
                  exact ha ((any_key_iff cs "pack.mcmeta").mpr (by rw [hf]; rfl))
          | cons n q =>
              rw [List.cons_append]
              simp only [getE]
              cases hf : cs.find? (fun x => x.1 == n) with
              | none => rfl
              | some x =>
                  have hx := List.mem_of_find?_eq_some hf
                  exact (ih x hx (hall x hx)).mp (h x hx) q
        · intro h x hx
          rw [ih x hx (hall x hx)]
          intro q
          have hxx := find?_eq_of_nodup hnd hx
          have h2 : getE ((x.1 :: q) ++ ["pack.mcmeta"]) (Entry.dir cs) = none := h (x.1 :: q)
          rw [List.cons_append] at h2
          simp only [getE] at h2
          rw [hxx] at h2
          exact h2

theorem find_pack_mcmeta_none_iff (s : FS) (hwf : wfFS s) :
    find_pack_mcmeta s = none ↔ ∀ p, fsGet s (p ++ ["pack.mcmeta"]) = none := by
  cases s with
  | none => simp [find_pack_mcmeta, fsGet]
  | some e =>
      have hwe : wfE e = true := hwf
      simp only [find_pack_mcmeta]
      by_cases hg : (getE ["pack.mcmeta"] e).isSome
      · rw [if_pos hg]
        constructor
        · intro h
          exact absurd h (by simp)
        · intro h
          exfalso
          have h0 : getE ["pack.mcmeta"] e = none := h []
          rw [h0] at hg
          simp at hg
      · rw [if_neg hg]
        rw [rglobPM_none_iff e hwe]
        exact ⟨fun h p => h p, fun h p => h p⟩

/-- C8: over well-formed pack trees, the entry point returns either 0 or 1,
and it returns 1 exactly when a fatal condition holds: the configuration
file is missing, the target tree contains no pack.mcmeta marker anywhere
(including the case of a missing target directory), the assets directory
is absent under the located pack root, or the parsed configuration lacks
the top-level assets key. -/
theorem claim_C8 (config : Option JEntries) (packDir : FS) (hwf : wfFS packDir) :
    (mainRun config packDir = 0 ∨ mainRun config packDir = 1) ∧
    (mainRun config packDir = 1 ↔
      (config = none ∨
       (∀ p, fsGet packDir (p ++ ["pack.mcmeta"]) = none) ∨
       (∃ root, find_pack_mcmeta packDir = some root ∧
          fsGet packDir (root ++ ["assets"]) = none) ∨
       (∃ cfg, config = some cfg ∧ "assets" ∉ cfg.keys))) := by
  cases config with
  | none =>
      refine ⟨Or.inr rfl, ?_⟩
      constructor
      · intro _
        exact Or.inl rfl
      · intro _
        rfl
  | some cfg =>
      cases hfp : find_pack_mcmeta packDir with
      | none =>
          have h1 : mainRun (some cfg) packDir = 1 := by
            simp [mainRun, hfp]
          refine ⟨Or.inr h1, ?_⟩
          constructor
          · intro _
            exact Or.inr (Or.inl ((find_pack_mcmeta_none_iff packDir hwf).mp hfp))
          · intro _
            exact h1
      | some root =>
          cases hassets : fsGet packDir (root ++ ["assets"]) with
          | none =>
              have h1 : mainRun (some cfg) packDir = 1 := by
                simp [mainRun, hfp, hassets]
              refine ⟨Or.inr h1, ?_⟩
              constructor
              · intro _
                exact Or.inr (Or.inr (Or.inl ⟨root, rfl, hassets⟩))
              · intro _
                exact h1
          | some aEntry =>
              by_cases hkey : cfg.keys.contains "assets" = true
              · have hmem : "assets" ∈ cfg.keys :=
                  (contains_eq_true_iff cfg.keys "assets").mp hkey
                have h0 : mainRun (some cfg) packDir = 0 := by
                  simp [mainRun, hfp, hassets, hmem]
                refine ⟨Or.inl h0, ?_⟩
                rw [h0]
                constructor
                · intro h
                  exact absurd h (by decide)
                · rintro (hc | hall | ⟨root2, hr2, ha2⟩ | ⟨cfg2, hc2, hk2⟩)
                  · exact absurd hc (by simp)
                  · rw [(find_pack_mcmeta_none_iff packDir hwf).mpr hall] at hfp
                    exact absurd hfp (by simp)
                  · injection hr2 with hr2
                    rw [← hr2] at ha2
                    rw [hassets] at ha2
                    exact absurd ha2 (by simp)
                  · injection hc2 with hc2
                    rw [← hc2] at hk2
                    exact absurd ((contains_eq_true_iff cfg.keys "assets").mp hkey) hk2
              · have hnmem : "assets" ∉ cfg.keys := fun hm =>
                  hkey ((contains_eq_true_iff cfg.keys "assets").mpr hm)
                have h1 : mainRun (some cfg) packDir = 1 := by
                  simp [mainRun, hfp, hassets, hnmem]
                refine ⟨Or.inr h1, ?_⟩
                constructor
                · intro _
                  refine Or.inr (Or.inr (Or.inr ⟨cfg, rfl, ?_⟩))
                  intro hm
                  exact hkey ((contains_eq_true_iff cfg.keys "assets").mpr hm)
                · intro _
                  exact h1

theorem claim_C8_witness :
    mainRun (some (JEntries.cons "assets" (JVal.jdict .nil) .nil))
        (some (.dir [("pack.mcmeta", Entry.file "m"), ("assets", Entry.dir [])])) = 0 ∨
    mainRun (some (JEntries.cons "assets" (JVal.jdict .nil) .nil))
        (some (.dir [("pack.mcmeta", Entry.file "m"), ("assets", Entry.dir [])])) = 1 :=
  (claim_C8 _ _ (by simp [wfFS, wfE, wfL])).1
